import Mathlib

/- Verification development for the IronBee traffic-server plugin sources.

   Part 1 embeds the streaming body-edit filter of
   src/servers/trafficserver/ts_filter.c: the edit type, the qsort ordering
   discipline (`qcompare` sorts descending by start and `flush_data` iterates
   from the array's end, popping by decrementing `len`), `flush_data`,
   `buffer_data_chunk` and the data-event driver `process_data`.

   Machine integers of the source (int64_t / size_t) are modelled as `Nat`
   (counters that the source keeps non-negative) and `Int` (the signed offset
   delta `offs`).  Transport buffers are byte lists; `TSIOBufferCopy` /
   `TSIOBufferReaderConsume` become `List.take` / `List.drop`.  The theorems
   carry the hypotheses (flush size bounded by the bytes resident in the
   reader) under which the source's `assert(n > 0)` copy loops complete, so
   that take/drop transfer exactly the amounts the source transfers. -/

namespace IronBee

/-- Status codes of the IronBee calls that appear in the embedded sources
(`IB_OK`, `IB_EAGAIN`, `IB_EBADVAL`, `IB_EINVAL`, `IB_EALLOC`,
`IB_EUNKNOWN`). -/
inductive IBStatus where
  | ok
  | eagain
  | ebadval
  | einval
  | ealloc
  | eunknown
  deriving DecidableEq, Repr

/-- A stream edit, `edit_t` of ts_ib.h as used by ts_filter.c: absolute
stream offset `start`, number of deleted bytes `bytes`, replacement string
`repl` (its length `repl_len` is `repl.length`). -/
structure Edit where
  start : Nat
  bytes : Nat
  repl  : List Nat
  deriving DecidableEq, Repr

/-- The five buffering modes of the filter (`IOBUF_*` in ts_ib.h). -/
inductive Buffering where
  | nobuf
  | discard
  | buffer_all
  | buffer_flushall
  | buffer_flushpart
  deriving DecidableEq, Repr

/-- Stable insertion step for the descending sort: `e` is placed before the
first element whose start is ≤ `e.start`.  Used to model the `qsort` call of
`flush_data` with comparator `qcompare(a,b) = b->start - a->start`
(descending by `start`); `qsort` leaves the order of equal keys unspecified,
and this model resolves ties stably (equal-start edits keep their array
order, which is insertion order). -/
def insertDesc (e : Edit) : List Edit → List Edit
  | [] => [e]
  | x :: xs => if x.start ≤ e.start then e :: x :: xs else x :: insertDesc e xs

/-- Model of `qsort(fctx->edits->data, nedits, sizeof(edit_t), qcompare)`:
stable sort to descending `start` order. -/
def sortDesc (es : List Edit) : List Edit :=
  es.foldr insertDesc []

/-- The order in which `flush_data` processes edits: the loop
`for (i = nedits-1; i >= 0; --i)` walks the descending-sorted array from its
end, i.e. in ascending-start order. -/
def procOrder (es : List Edit) : List Edit :=
  (sortDesc es).reverse

/-- The mutable locals of the `flush_data` edit loop: `fctx->bytes_done`,
`fctx->offs`, the bytes resident in `fctx->reader` (whose count is
`fctx->buffered`), the output-buffer contents, the remaining `nbytes`, and
the running status `rc`. -/
structure LoopSt where
  bd     : Nat
  offs   : Int
  input  : List Nat
  out    : List Nat
  nbytes : Nat
  rc     : IBStatus
  deriving DecidableEq, Repr

/-- The state update of one applied edit in `flush_data` (lines 131-157):
copy verbatim bytes up to `edit->start`, consume `edit->bytes` deleted
bytes, append the replacement, and add `repl_len - bytes` to `offs`. -/
def applyEdit (e : Edit) (st : LoopSt) : LoopSt :=
  { bd := e.start + e.bytes
    offs := st.offs + (e.repl.length : Int) - (e.bytes : Int)
    input := st.input.drop (e.start - st.bd + e.bytes)
    out := st.out ++ st.input.take (e.start - st.bd) ++ e.repl
    nbytes := st.nbytes - (e.start - st.bd) - e.bytes
    rc := st.rc }

/-- The edit loop of `flush_data` (lines 92-158), over the edits in
processing order.  Returns the final loop state and the unprocessed suffix
(the edits still in the array after the loop, in processing order):
an edit behind `bytes_done` is popped with `rc = IB_EBADVAL`; an edit
extending past `bytes_done + nbytes` is, when `last`, popped with
`rc = IB_EBADVAL`, and otherwise clips `nbytes` to `edit->start -
bytes_done`, sets `rc = IB_EAGAIN` and breaks; otherwise the edit is applied
and popped. -/
def editLoop (last : Bool) : List Edit → LoopSt → LoopSt × List Edit
  | [], st => (st, [])
  | e :: rest, st =>
    if e.start < st.bd then
      editLoop last rest { st with rc := .ebadval }
    else if st.bd + st.nbytes < e.start + e.bytes then
      if last then
        editLoop last rest { st with rc := .ebadval }
      else
        ({ st with nbytes := e.start - st.bd, rc := .eagain }, e :: rest)
    else
      editLoop last rest (applyEdit e st)

/-- The per-direction filter context `tsib_filter_ctx` (the fields ts_filter.c
uses): buffering mode and limit, `bytes_done`, `offs`, the bytes resident in
the staging buffer read by `fctx->reader` (the source's separate `buffered`
counter always equals `input.length`: every TSIOBufferCopy /
TSIOBufferReaderConsume on the reader adjusts both by the same amount), the
edits array in its stored order, the output-buffer contents, and the byte
count committed through `TSVIONBytesSet` on the output VIO (`none` until
set). -/
structure FilterCtx where
  buffering  : Buffering
  buf_limit  : Nat
  bytes_done : Nat
  offs       : Int
  input      : List Nat
  edits      : List Edit
  out        : List Nat
  vio_nbytes : Option Int
  deriving DecidableEq, Repr

/-- Embedding of `flush_data(fctx, nbytes, last)`.  `nbytes = none` models
the `-1` argument (flush everything buffered).  After the edit loop the
remaining `nbytes` are copied verbatim; on `last` the final downstream size
`bytes_done + offs` is committed via `TSVIONBytesSet`.  The surviving edits
are stored back in descending order, as the popped array leaves them. -/
def flush_data (fctx : FilterCtx) (nbytesOpt : Option Nat) (last : Bool) :
    IBStatus × FilterCtx :=
  let nbytes := nbytesOpt.getD fctx.input.length
  let st0 : LoopSt :=
    { bd := fctx.bytes_done, offs := fctx.offs, input := fctx.input,
      out := fctx.out, nbytes := nbytes, rc := .ok }
  let res := editLoop last (procOrder fctx.edits) st0
  let st := res.1
  let bd' := st.bd + st.nbytes
  let fctx' : FilterCtx :=
    { fctx with
      bytes_done := bd'
      offs := st.offs
      input := st.input.drop st.nbytes
      edits := res.2.reverse
      out := st.out ++ st.input.take st.nbytes
      vio_nbytes := if last then some ((bd' : Int) + st.offs) else fctx.vio_nbytes }
  (st.rc, fctx')

/-- Embedding of `buffer_data_chunk(fctx, reader, nbytes)`: in `IOBUF_DISCARD`
consume whatever is buffered and drop the chunk; in `IOBUF_BUFFER_FLUSHALL`
flush everything first when the chunk would push `buffered` past the limit;
then copy the chunk into the staging buffer; in `IOBUF_NOBUF` flush it all at
once; in `IOBUF_BUFFER_FLUSHPART` flush the overflow past the limit. -/
def buffer_data_chunk (fctx : FilterCtx) (chunk : List Nat) :
    IBStatus × FilterCtx :=
  if fctx.buffering = .discard then
    (.ok, { fctx with input := [] })
  else
    let pre :=
      if fctx.buffering = .buffer_flushall ∧
         fctx.buf_limit < fctx.input.length + chunk.length then
        flush_data fctx none false
      else
        (.ok, fctx)
    let f2 : FilterCtx := { pre.2 with input := pre.2.input ++ chunk }
    if f2.buffering = .nobuf then
      flush_data f2 none false
    else if f2.buffering = .buffer_flushpart ∧ f2.buf_limit < f2.input.length then
      flush_data f2 (some (f2.input.length - f2.buf_limit)) false
    else
      (pre.1, f2)

/-- The status handling of `process_data` for one body chunk (lines 424-437):
`IB_EAGAIN` and `IB_OK` fall through silently, any other status is logged.
No branch leaves the function early. -/
def chunk_status_logged : IBStatus → Bool
  | .eagain => false
  | .ok => false
  | _ => true

/-- One body-chunk step of `process_data` (lines 417-438): buffer the chunk,
switch on the status (which at most logs), then unconditionally consume the
input chunk (`TSIOBufferReaderConsume` / `TSVIONDoneSet`) and carry on; no
status aborts the transaction.  The second component records whether an
error was logged, the third that the chunk was consumed and processing
continued. -/
def process_data_step (fctx : FilterCtx) (chunk : List Nat) :
    FilterCtx × Bool × Bool :=
  let r := buffer_data_chunk fctx chunk
  (r.2, chunk_status_logged r.1, true)

/-- A fresh filter context as `process_data` initialises it on the first
chunk: empty buffers, zero counters, no edits, no committed size. -/
def initCtx (mode : Buffering) (limit : Nat) : FilterCtx :=
  { buffering := mode, buf_limit := limit, bytes_done := 0, offs := 0,
    input := [], edits := [], out := [], vio_nbytes := none }

/-- Feed a sequence of body chunks through `buffer_data_chunk`. -/
def runChunks (fctx : FilterCtx) (chunks : List (List Nat)) : FilterCtx :=
  chunks.foldl (fun f c => (buffer_data_chunk f c).2) fctx

/-- The end-of-stream step of `process_data`: `flush_data(fctx, -1, 1)`. -/
def finishRun (fctx : FilterCtx) : IBStatus × FilterCtx :=
  flush_data fctx none true

/-- Edits that touch pairwise disjoint byte ranges of the stream: the
"no two edits overlap" premise of the specification's edit-semantics
property. -/
def editsDisjoint (a b : Edit) : Prop :=
  a.start + a.bytes ≤ b.start ∨ b.start + b.bytes ≤ a.start

instance : DecidableRel editsDisjoint := fun _ _ =>
  inferInstanceAs (Decidable (_ ∨ _))

/-- An edit list is chain-valid from stream position `bd` when each edit
starts at or after the end of the previous one: exactly the situation in
which the `flush_data` loop applies every edit. -/
def chainValid : Nat → List Edit → Prop
  | _, [] => True
  | bd, e :: es => bd ≤ e.start ∧ chainValid (e.start + e.bytes) es

/-- Stable insertion for the specification's ascending sort: `e` is placed
before the first element whose start is ≥ `e.start`, so equal-start edits
keep their original (insertion) order. -/
def insertAsc (e : Edit) : List Edit → List Edit
  | [] => [e]
  | x :: xs => if e.start ≤ x.start then e :: x :: xs else x :: insertAsc e xs

/-- The specification's edit ordering: sort by `start` ascending, ties broken
by insertion order. -/
def sortAsc (es : List Edit) : List Edit :=
  es.foldr insertAsc []

/-- The specification's replacement semantics, written from its words: for
each edit in the given order, replace `I[e.start : e.start + e.bytes]` by
`e.repl`.  `pos` is the stream position of the head of `tail` (already
replaced text is not revisited, so positions are tracked, not searched). -/
def replaceAsc : List Edit → Nat → List Nat → List Nat
  | [], _, tail => tail
  | e :: es, pos, tail =>
    tail.take (e.start - pos) ++ e.repl ++
      replaceAsc es (e.start + e.bytes) (tail.drop (e.start - pos + e.bytes))

/-- The specification's edit semantics, end to end: apply the edits to `I`
in ascending-start order with ties broken by insertion order. -/
def specApplyEdits (es : List Edit) (I : List Nat) : List Nat :=
  replaceAsc (sortAsc es) 0 I

/-- Net size change of a list of edits: Σ (replacement length − deleted
bytes). -/
def editGain (es : List Edit) : Int :=
  (es.map fun e => (e.repl.length : Int) - (e.bytes : Int)).sum

/-- Ghost companion of `editLoop`: the sublist of edits the loop applies
(as opposed to dropping or leaving behind), following the loop's exact
branch structure. -/
def appliedEdits (last : Bool) : List Edit → LoopSt → List Edit
  | [], _ => []
  | e :: rest, st =>
    if e.start < st.bd then
      appliedEdits last rest { st with rc := .ebadval }
    else if st.bd + st.nbytes < e.start + e.bytes then
      if last then appliedEdits last rest { st with rc := .ebadval }
      else []
    else
      e :: appliedEdits last rest (applyEdit e st)

/- Part 2: the rules module, src/modules/rules.c.  Strings are `List Char`;
   the mpool copies of the source are immaterial.  The operator and action
   registries (`ib_operator_inst_create` / `ib_action_inst_create`, outside
   src/) are abstracted as name-lookup oracles; their only behaviour the
   parsing code depends on is success versus `IB_EINVAL` on an unknown
   name. -/

/-- The C `isblank` predicate (C locale): space or horizontal tab. -/
def isblankC (c : Char) : Bool :=
  c == ' ' || c == '\t'

/-- The C `isspace` predicate (C locale): space, and the control characters
9 (tab) through 13 (carriage return). -/
def isspaceC (c : Char) : Bool :=
  c == ' ' || (9 ≤ c.toNat && c.toNat ≤ 13)

/-- The leading scan of `parse_operator` (rules.c lines 114-127): walk the
string; a first `!` (before `@`) sets the invert flag; `@` ends the scan
with the rest of the string; a blank is skipped; any other character (a
second `!` included) is a syntax error, as is running out of characters
without finding `@`. -/
def scanOp : List Char → Bool → Option (Bool × List Char)
  | [], _ => none
  | c :: cs, bang =>
    if bang = false ∧ c = '!' then scanOp cs true
    else if c = '@' then some (bang, cs)
    else if isblankC c then scanOp cs bang
    else none

/-- The result of `parse_operator`: the invert flag, the operator name and
the optional argument string handed to `ib_operator_inst_create`. -/
structure OpParse where
  invert : Bool
  name : List Char
  args : Option (List Char)
  deriving DecidableEq, Repr

/-- Strip trailing space characters (only `' '`, as the loop at rules.c
lines 160-164 does). -/
def stripTrailingSp (l : List Char) : List Char :=
  (l.reverse.dropWhile (fun c => c == ' ')).reverse

/-- The part of `parse_operator` after `@` is found (rules.c lines 130-171):
require a non-empty tail, cut the name at the first space
(`strchr(copy, ' ')`), skip whitespace (`isspace`) from the space onward,
strip trailing space characters, and turn empty arguments into `none`
(absent). -/
def opSplitArgs (bang : Bool) (tail : List Char) : Option OpParse :=
  if tail = [] then none
  else
    let name := tail.takeWhile (fun c => c != ' ')
    let rest := tail.dropWhile (fun c => c != ' ')
    if rest = [] then some ⟨bang, name, none⟩
    else
      let a := rest.dropWhile isspaceC
      if a = [] then some ⟨bang, name, none⟩
      else some ⟨bang, name, some (stripTrailingSp a)⟩

/-- Embedding of `parse_operator` (rules.c lines 97-194) up to the operator
string's decomposition: scan for `!`/`@`, then decompose the tail after
`@` with `opSplitArgs`.  `none` models the `IB_EINVAL` returns. -/
def parse_operator (s : List Char) : Option OpParse :=
  match scanOp s false with
  | none => none
  | some (bang, tail) => opSplitArgs bang tail

/-- Name/argument decomposition of the tail after `@`, as the specification
words it: the first space cuts name from arguments, leading whitespace and
trailing spaces of the arguments are stripped, empty arguments become
absent. -/
def grammarSplit (inv : Bool) (tail : List Char) : Option OpParse :=
  if tail = [] then none
  else
    let name := tail.takeWhile (fun c => c != ' ')
    let afterName := tail.dropWhile (fun c => c != ' ')
    let args := stripTrailingSp (afterName.dropWhile isspaceC)
    some ⟨inv, name, if args = [] then none else some args⟩

/-- The operator-string grammar as the specification words it, amended only
in that whitespace may also separate the `!` from the `@`: optional blanks,
an optional single `!` (optionally followed by blanks), then `@` and a
non-empty tail, decomposed by `grammarSplit`. -/
def grammarOperator (s : List Char) : Option OpParse :=
  match s.dropWhile isblankC with
  | [] => none
  | c :: r =>
    if c = '!' then
      match r.dropWhile isblankC with
      | [] => none
      | c2 :: r2 => if c2 = '@' then grammarSplit true r2 else none
    else if c = '@' then grammarSplit false r
    else none

/-- The operator-string grammar exactly as the claim states it: optional
whitespace, an optional single `!`, then immediately `@` and a non-empty
tail. -/
def claimOperatorAccepts (s : List Char) : Bool :=
  match s.dropWhile isblankC with
  | '!' :: '@' :: tail => !tail.isEmpty
  | '@' :: tail => !tail.isEmpty
  | _ => false

/-- The `strtok(copy, "|,")` delimiters of `parse_inputs`. -/
def isDelimC (c : Char) : Bool :=
  c == '|' || c == ','

/-- Worker for `tokenize`: `acc` holds the (reversed) characters of the
token currently being read. -/
def tokenizeAux : List Char → List Char → List (List Char)
  | [], acc => if acc = [] then [] else [acc.reverse]
  | c :: cs, acc =>
    if isDelimC c then
      if acc = [] then tokenizeAux cs []
      else acc.reverse :: tokenizeAux cs []
    else tokenizeAux cs (c :: acc)

/-- Model of repeated `strtok(·, "|,")`: the maximal non-empty runs of
non-delimiter characters, in order. -/
def tokenize (l : List Char) : List (List Char) :=
  tokenizeAux l []

/-- Embedding of `parse_inputs` (rules.c lines 210-247): skip leading
whitespace, reject the empty remainder with `IB_EINVAL`, then add each
`strtok` token as an input selector (`ib_rule_add_input` is the builder
append and does not fail in the modelled paths). -/
def parse_inputs (s : List Char) : Option (List (List Char)) :=
  let s1 := s.dropWhile isspaceC
  if s1 = [] then none
  else some (tokenize s1)

/-- Rule phase, `ib_rule_phase_t` of rule_defs.h. -/
inductive Phase where
  | phase_none
  | request_header
  | request_body
  | response_header
  | response_body
  | postprocess
  deriving DecidableEq, Repr

/-- Rule flag bits of rule_defs.h. -/
def IB_RULE_FLAG_EXTERNAL : Nat := 1

/-- Rule flag bit `IB_RULE_FLAG_CHAIN` of rule_defs.h. -/
def IB_RULE_FLAG_CHAIN : Nat := 2

/-- An action instance as far as the rules module sees it: registry name and
optional parameter string. -/
structure ActionInst where
  aname : List Char
  value : Option (List Char)
  deriving DecidableEq, Repr

/-- The rule object under construction: flag bits, input selectors, operator
instance, id, and the on-true / on-false action lists. -/
structure Rule where
  flags : Nat
  inputs : List (List Char)
  op : Option OpParse
  ruleId : Option (List Char)
  true_actions : List ActionInst
  false_actions : List ActionInst
  deriving DecidableEq, Repr

/-- A fresh rule from `ib_rule_create`: no flags, no inputs, no operator. -/
def ib_rule_create : Rule :=
  { flags := 0, inputs := [], op := none, ruleId := none,
    true_actions := [], false_actions := [] }

/-- Case-insensitive string equality, modelling `strcasecmp` (C locale). -/
def ciEq (a b : List Char) : Bool :=
  a.map Char.toLower == b.map Char.toLower

/-- The name/value split of `parse_modifier` (rules.c lines 283-295):
`strchr(copy, ':')`; only when the colon exists and is not the last
character is the name cut there, with the value being the remainder after
leading whitespace (or absent when that is empty).  A trailing lone colon
stays part of the name. -/
def splitModifier (s : List Char) : List Char × Option (List Char) :=
  let name := s.takeWhile (fun c => c != ':')
  match s.dropWhile (fun c => c != ':') with
  | [] => (s, none)
  | [_] => (s, none)
  | _ :: vs =>
    let v := vs.dropWhile isspaceC
    (name, if v = [] then none else some v)

/-- The registries the parsing code consults, abstracted to name lookup:
`ib_operator_inst_create` and `ib_action_inst_create` succeed exactly on
known names. -/
structure ParseEnv where
  opKnown : List Char → Bool
  actionKnown : List Char → Bool

/-- Embedding of `parse_modifier` (rules.c lines 263-368): `id:` requires a
value; `phase:` requires one of the six case-insensitive tags; `chain` ORs
in `IB_RULE_FLAG_CHAIN`; any other name is an action, a leading `!` on the
name selecting the false-branch list, unknown actions being `IB_EINVAL`. -/
def parse_modifier (env : ParseEnv) (rule : Rule) (phase : Phase)
    (s : List Char) : Option (Rule × Phase) :=
  let nv := splitModifier s
  let mname := nv.1
  let value := nv.2
  if ciEq mname "id".toList then
    match value with
    | none => none
    | some v => some ({ rule with ruleId := some v }, phase)
  else if ciEq mname "phase".toList then
    match value with
    | none => none
    | some v =>
      if ciEq v "REQUEST_HEADER".toList then some (rule, .request_header)
      else if ciEq v "REQUEST".toList then some (rule, .request_body)
      else if ciEq v "RESPONSE_HEADER".toList then some (rule, .response_header)
      else if ciEq v "RESPONSE".toList then some (rule, .response_body)
      else if ciEq v "POSTPROCESS".toList then some (rule, .postprocess)
      else if ciEq v "NONE".toList then some (rule, .phase_none)
      else none
  else if ciEq mname "chain".toList then
    some ({ rule with flags := rule.flags ||| IB_RULE_FLAG_CHAIN }, phase)
  else
    let neg := mname.head? = some '!'
    let aname := if neg then mname.tail else mname
    if env.actionKnown aname then
      if neg then
        some ({ rule with
                false_actions := rule.false_actions ++ [⟨aname, value⟩] }, phase)
      else
        some ({ rule with
                true_actions := rule.true_actions ++ [⟨aname, value⟩] }, phase)
    else none

/-- Fold `parse_modifier` over the modifier list, as the `while` loops of
`rules_rule_params` and `rules_ruleext_params` do. -/
def parseMods (env : ParseEnv) :
    Rule → Phase → List (List Char) → Option (Rule × Phase)
  | r, p, [] => some (r, p)
  | r, p, m :: ms =>
    match parse_modifier env r p m with
    | none => none
    | some rp => parseMods env rp.1 rp.2 ms

/-- Embedding of the `Rule` directive handler `rules_rule_params` (rules.c
lines 645-720): require an inputs string and an operator string, create a
rule (flags 0), parse inputs, parse the operator and create its instance
(failing on an unknown operator name), parse the modifiers, then register.
`ib_rule_register` (outside src/) is modelled as accepting the rule. -/
def rules_rule_params (env : ParseEnv) (vars : List (List Char)) :
    Option (Rule × Phase) :=
  match vars with
  | inputs_str :: op_str :: mods =>
    match parse_inputs inputs_str with
    | none => none
    | some toks =>
      let rule1 := { ib_rule_create with inputs := toks }
      match parse_operator op_str with
      | none => none
      | some opp =>
        if env.opKnown opp.name then
          parseMods env { rule1 with op := some opp } .phase_none mods
        else none
  | _ => none

/- Part 3: the Lua script gate of src/modules/rules.c. -/

/-- Embedding of `call_in_critical_section` (rules.c lines 383-418) as a
function of the outcomes of its three calls: if `ib_lock_lock` on
`g_lua_lock` fails, that status is returned and the protected function
never runs; otherwise the protected function runs, and an
`ib_lock_unlock` failure takes precedence over its status. -/
def call_in_critical_section (lockRc fnRc unlockRc : IBStatus) : IBStatus :=
  if lockRc ≠ .ok then lockRc
  else if unlockRc ≠ .ok then unlockRc
  else fnRc

/-- The outcomes of the host calls `ib_lua_func_eval_r` makes: the lock and
unlock results around thread creation and teardown, the creation and
teardown results themselves, and the script evaluation's status and integer
result. -/
structure LuaCallEnv where
  lockNew : IBStatus
  newThread : IBStatus
  unlockNew : IBStatus
  evalRc : IBStatus
  evalVal : Int
  lockJoin : IBStatus
  joinThread : IBStatus
  unlockJoin : IBStatus

/-- Embedding of `ib_lua_func_eval_r` (rules.c lines 433-467): create a Lua
thread under the gate (returning that status on failure, with `*result`
never assigned, hence `none`); evaluate the function, which writes
`*result`; on evaluation failure return its status; otherwise tear the
thread down under the gate and return that status. -/
def ib_lua_func_eval_r (env : LuaCallEnv) : IBStatus × Option Int :=
  let rc1 := call_in_critical_section env.lockNew env.newThread env.unlockNew
  if rc1 ≠ .ok then (rc1, none)
  else if env.evalRc ≠ .ok then (env.evalRc, some env.evalVal)
  else (call_in_critical_section env.lockJoin env.joinThread env.unlockJoin,
        some env.evalVal)

/-- Modelled from the spec: the rule-engine operator dispatch is not under
src/ (only its caller `lua_operator_execute` is); per §4.5 and §7 of the
specification, a rule whose operator returns a non-ok status — the script
gate's `transient` failure included — is considered to have produced false
for the transaction. -/
def rule_operator_outcome (r : IBStatus × Option Int) : Bool :=
  match r with
  | (.ok, some v) => v != 0
  | _ => false

/- Theorems.  First, step lemmas for the `flush_data` edit loop. -/

theorem editLoop_drop (last : Bool) (e : Edit) (rest : List Edit) (st : LoopSt)
    (h : e.start < st.bd) :
    editLoop last (e :: rest) st = editLoop last rest { st with rc := .ebadval } := by
  simp [editLoop, h]

theorem editLoop_drop_last (e : Edit) (rest : List Edit) (st : LoopSt)
    (h1 : ¬ e.start < st.bd) (h2 : st.bd + st.nbytes < e.start + e.bytes) :
    editLoop true (e :: rest) st = editLoop true rest { st with rc := .ebadval } := by
  simp [editLoop, h1, h2]

theorem editLoop_apply_step (last : Bool) (e : Edit) (rest : List Edit) (st : LoopSt)
    (h1 : ¬ e.start < st.bd) (h2 : ¬ st.bd + st.nbytes < e.start + e.bytes) :
    editLoop last (e :: rest) st = editLoop last rest (applyEdit e st) := by
  simp [editLoop, h1, h2]

theorem editLoop_break (e : Edit) (rest : List Edit) (st : LoopSt)
    (h1 : ¬ e.start < st.bd) (h2 : st.bd + st.nbytes < e.start + e.bytes) :
    editLoop false (e :: rest) st =
      ({ st with nbytes := e.start - st.bd, rc := .eagain }, e :: rest) := by
  simp [editLoop, h1, h2]

theorem editLoop_drops (last : Bool) (ds : List Edit) :
    ∀ (l : List Edit) (st : LoopSt), (∀ d ∈ ds, d.start < st.bd) →
    ∃ r, editLoop last (ds ++ l) st = editLoop last l { st with rc := r } := by
  induction ds with
  | nil => intro l st _; exact ⟨st.rc, rfl⟩
  | cons d ds ih =>
    intro l st h
    rw [List.cons_append, editLoop_drop last d _ st (h d (by simp))]
    exact ih l _ (fun d' hd' => h d' (by simp [hd']))

theorem applyEdit_nbytes_le (e : Edit) (st : LoopSt)
    (h : st.nbytes ≤ st.input.length)
    (h1 : ¬ e.start < st.bd) (_h2 : ¬ st.bd + st.nbytes < e.start + e.bytes) :
    (applyEdit e st).nbytes ≤ (applyEdit e st).input.length := by
  simp only [applyEdit, List.length_drop]
  omega

theorem editLoop_bd_len (last : Bool) (es : List Edit) :
    ∀ st : LoopSt, st.nbytes ≤ st.input.length →
    (editLoop last es st).1.input.length + (editLoop last es st).1.bd
        = st.input.length + st.bd
    ∧ st.bd ≤ (editLoop last es st).1.bd := by
  induction es with
  | nil => intro st _; simp [editLoop]
  | cons e rest ih =>
    intro st h
    by_cases h1 : e.start < st.bd
    · rw [editLoop_drop _ _ _ _ h1]; exact ih _ h
    · by_cases h2 : st.bd + st.nbytes < e.start + e.bytes
      · cases last with
        | false => rw [editLoop_break _ _ _ h1 h2]; simp
        | true => rw [editLoop_drop_last _ _ _ h1 h2]; exact ih _ h
      · rw [editLoop_apply_step _ _ _ _ h1 h2]
        have H := ih (applyEdit e st) (applyEdit_nbytes_le e st h h1 h2)
        simp only [applyEdit, List.length_drop] at H ⊢
        omega

theorem editLoop_no_break (last : Bool) (es : List Edit) :
    ∀ st : LoopSt, st.nbytes ≤ st.input.length → st.rc ≠ .eagain →
    (editLoop last es st).1.rc ≠ .eagain →
    (editLoop last es st).1.bd + (editLoop last es st).1.nbytes = st.bd + st.nbytes
    ∧ (editLoop last es st).1.nbytes ≤ (editLoop last es st).1.input.length := by
  induction es with
  | nil => intro st h _ _; simp [editLoop]; exact h
  | cons e rest ih =>
    intro st h hrc hfin
    by_cases h1 : e.start < st.bd
    · rw [editLoop_drop _ _ _ _ h1] at hfin ⊢
      exact ih _ h (by simp) hfin
    · by_cases h2 : st.bd + st.nbytes < e.start + e.bytes
      · cases last with
        | false =>
          rw [editLoop_break _ _ _ h1 h2] at hfin
          simp at hfin
        | true =>
          rw [editLoop_drop_last _ _ _ h1 h2] at hfin ⊢
          exact ih _ h (by simp) hfin
      · rw [editLoop_apply_step _ _ _ _ h1 h2] at hfin ⊢
        have H := ih (applyEdit e st) (applyEdit_nbytes_le e st h h1 h2)
          (by simpa [applyEdit] using hrc) hfin
        simp only [applyEdit] at H ⊢
        omega

theorem editLoop_last_nbytes (es : List Edit) :
    ∀ st : LoopSt, st.nbytes ≤ st.input.length →
    (editLoop true es st).1.nbytes ≤ (editLoop true es st).1.input.length := by
  induction es with
  | nil => intro st h; simpa [editLoop] using h
  | cons e rest ih =>
    intro st h
    by_cases h1 : e.start < st.bd
    · rw [editLoop_drop _ _ _ _ h1]; exact ih _ h
    · by_cases h2 : st.bd + st.nbytes < e.start + e.bytes
      · rw [editLoop_drop_last _ _ _ h1 h2]; exact ih _ h
      · rw [editLoop_apply_step _ _ _ _ h1 h2]
        exact ih _ (applyEdit_nbytes_le e st h h1 h2)

theorem editLoop_out_inv (last : Bool) (es : List Edit) :
    ∀ st : LoopSt, st.nbytes ≤ st.input.length →
    ((editLoop last es st).1.out.length : Int) - ((editLoop last es st).1.bd : Int)
        - (editLoop last es st).1.offs
      = (st.out.length : Int) - (st.bd : Int) - st.offs := by
  induction es with
  | nil => intro st _; simp [editLoop]
  | cons e rest ih =>
    intro st h
    by_cases h1 : e.start < st.bd
    · rw [editLoop_drop _ _ _ _ h1]; exact ih _ h
    · by_cases h2 : st.bd + st.nbytes < e.start + e.bytes
      · cases last with
        | false => rw [editLoop_break _ _ _ h1 h2]
        | true => rw [editLoop_drop_last _ _ _ h1 h2]; exact ih _ h
      · rw [editLoop_apply_step _ _ _ _ h1 h2]
        have H := ih (applyEdit e st) (applyEdit_nbytes_le e st h h1 h2)
        simp only [applyEdit, List.length_append, List.length_take] at H ⊢
        have htake : min (e.start - st.bd) st.input.length = e.start - st.bd := by
          omega
        rw [htake] at H
        rw [H]
        push_cast
        omega

theorem editLoop_offs (last : Bool) (es : List Edit) :
    ∀ st : LoopSt,
    (editLoop last es st).1.offs = st.offs + editGain (appliedEdits last es st) := by
  induction es with
  | nil => intro st; simp [editLoop, appliedEdits, editGain]
  | cons e rest ih =>
    intro st
    by_cases h1 : e.start < st.bd
    · rw [editLoop_drop _ _ _ _ h1]
      simp only [appliedEdits, if_pos h1]
      exact ih _
    · by_cases h2 : st.bd + st.nbytes < e.start + e.bytes
      · cases last with
        | false =>
          rw [editLoop_break _ _ _ h1 h2]
          simp [appliedEdits, h1, h2, editGain]
        | true =>
          rw [editLoop_drop_last _ _ _ h1 h2]
          simp only [appliedEdits, if_neg h1, if_pos h2, if_pos rfl]
          exact ih _
      · rw [editLoop_apply_step _ _ _ _ h1 h2]
        rw [ih (applyEdit e st)]
        simp only [appliedEdits, if_neg h1, if_neg h2, applyEdit, editGain,
          List.map_cons, List.sum_cons]
        ring

theorem flush_data_no_edits (f : FilterCtx) (n : Option Nat) (last : Bool)
    (h : f.edits = []) :
    flush_data f n last =
      (.ok,
       { f with
         bytes_done := f.bytes_done + n.getD f.input.length,
         input := f.input.drop (n.getD f.input.length),
         out := f.out ++ f.input.take (n.getD f.input.length),
         edits := [],
         vio_nbytes :=
           if last then
             some (((f.bytes_done + n.getD f.input.length : Nat) : Int) + f.offs)
           else f.vio_nbytes }) := by
  simp [flush_data, h, procOrder, sortDesc, editLoop]

theorem flush_data_buffering (f : FilterCtx) (n : Option Nat) (last : Bool) :
    (flush_data f n last).2.buffering = f.buffering := rfl

theorem bdc_discard (f : FilterCtx) (chunk : List Nat)
    (hm : f.buffering = .discard) :
    buffer_data_chunk f chunk = (.ok, { f with input := [] }) := by
  simp [buffer_data_chunk, hm]

theorem bdc_nobuf (f : FilterCtx) (chunk : List Nat)
    (hm : f.buffering = .nobuf) :
    buffer_data_chunk f chunk
      = flush_data { f with input := f.input ++ chunk } none false := by
  simp [buffer_data_chunk, hm]

theorem bdc_buffer_all (f : FilterCtx) (chunk : List Nat)
    (hm : f.buffering = .buffer_all) :
    buffer_data_chunk f chunk = (.ok, { f with input := f.input ++ chunk }) := by
  simp [buffer_data_chunk, hm]

theorem bdc_flushall_over (f : FilterCtx) (chunk : List Nat)
    (hm : f.buffering = .buffer_flushall)
    (hlim : f.buf_limit < f.input.length + chunk.length) :
    buffer_data_chunk f chunk =
      ((flush_data f none false).1,
       { (flush_data f none false).2 with
         input := (flush_data f none false).2.input ++ chunk }) := by
  have hb := flush_data_buffering f none false
  simp [buffer_data_chunk, hm, hlim, hb]

theorem bdc_flushall_under (f : FilterCtx) (chunk : List Nat)
    (hm : f.buffering = .buffer_flushall)
    (hlim : ¬ f.buf_limit < f.input.length + chunk.length) :
    buffer_data_chunk f chunk = (.ok, { f with input := f.input ++ chunk }) := by
  simp [buffer_data_chunk, hm, hlim]

theorem bdc_flushpart_over (f : FilterCtx) (chunk : List Nat)
    (hm : f.buffering = .buffer_flushpart)
    (hlim : f.buf_limit < (f.input ++ chunk).length) :
    buffer_data_chunk f chunk
      = flush_data { f with input := f.input ++ chunk }
          (some ((f.input ++ chunk).length - f.buf_limit)) false := by
  simp only [List.length_append] at hlim
  simp [buffer_data_chunk, hm, hlim]

theorem bdc_flushpart_under (f : FilterCtx) (chunk : List Nat)
    (hm : f.buffering = .buffer_flushpart)
    (hlim : ¬ f.buf_limit < (f.input ++ chunk).length) :
    buffer_data_chunk f chunk = (.ok, { f with input := f.input ++ chunk }) := by
  simp only [List.length_append] at hlim
  simp [buffer_data_chunk, hm, hlim]

theorem flush_consume (f : FilterCtx) (n : Option Nat) (last : Bool)
    (hn : n.getD f.input.length ≤ f.input.length)
    (hrc : (flush_data f n last).1 ≠ .eagain) :
    (flush_data f n last).2.bytes_done = f.bytes_done + n.getD f.input.length
    ∧ (flush_data f n last).2.input.length
        = f.input.length - n.getD f.input.length := by
  simp only [flush_data] at hrc ⊢
  have hnb := editLoop_no_break last (procOrder f.edits)
    { bd := f.bytes_done, offs := f.offs, input := f.input,
      out := f.out, nbytes := n.getD f.input.length, rc := .ok }
    hn (by simp) hrc
  have hbl := editLoop_bd_len last (procOrder f.edits)
    { bd := f.bytes_done, offs := f.offs, input := f.input,
      out := f.out, nbytes := n.getD f.input.length, rc := .ok } hn
  simp only at hnb hbl
  simp only [List.length_drop]
  omega

/-- C10: within one `flush_data` call with `last = false`, when an edit is
first dropped as invalid (its start lies before `bytes_done`, setting
`rc = IB_EBADVAL`) and a later edit is then found to straddle the emit
horizon, the break overwrites `rc` with `IB_EAGAIN`, so the call returns
`again` and the `invalid_edit` report from this same flush never reaches
the caller. -/
theorem c10_badval_overwritten (f : FilterCtx) (n : Nat) (e1 e2 : Edit)
    (rest : List Edit)
    (hp : procOrder f.edits = e1 :: e2 :: rest)
    (h1 : e1.start < f.bytes_done)
    (h2 : f.bytes_done ≤ e2.start)
    (h3 : f.bytes_done + n < e2.start + e2.bytes) :
    (flush_data f (some n) false).1 = .eagain := by
  simp only [flush_data, hp, Option.getD_some]
  rw [editLoop_drop _ _ _ _ (by simpa using h1)]
  rw [editLoop_break _ _ _ (by simpa using h2) (by simpa using h3)]

theorem c10_witness :
    (flush_data
      { buffering := .buffer_all, buf_limit := 0, bytes_done := 2, offs := 0,
        input := [1, 2, 3], edits := [⟨0, 1, [50]⟩, ⟨4, 2, [60]⟩], out := [],
        vio_nbytes := none } (some 3) false).1 = .eagain :=
  c10_badval_overwritten _ 3 ⟨0, 1, [50]⟩ ⟨4, 2, [60]⟩ []
    (by decide) (by decide) (by decide) (by decide)

/-- C4: an edit starting before `bytes_done`, and on a final flush an edit
extending past the data, is popped from the edit list with `rc` set to
`IB_EBADVAL` and with no other state change — nothing is emitted and no
counter moves; and the `process_data` caller merely logs a non-ok status,
always consumes the input chunk and continues (third component `true`; the
function has no abort path). -/
theorem c4_invalid_edits_dropped (last : Bool) (e : Edit) (rest : List Edit)
    (st : LoopSt) (f : FilterCtx) (chunk : List Nat) :
    (e.start < st.bd →
      editLoop last (e :: rest) st = editLoop last rest { st with rc := .ebadval })
    ∧ (¬ e.start < st.bd → st.bd + st.nbytes < e.start + e.bytes →
      editLoop true (e :: rest) st = editLoop true rest { st with rc := .ebadval })
    ∧ (process_data_step f chunk).2.2 = true
    ∧ (process_data_step f chunk).2.1
        = chunk_status_logged (buffer_data_chunk f chunk).1
    ∧ chunk_status_logged .ebadval = true := by
  refine ⟨fun h => editLoop_drop last e rest st h,
          fun h1 h2 => editLoop_drop_last e rest st h1 h2, rfl, rfl, rfl⟩

theorem c4_witness :
    ((⟨0, 1, [50]⟩ : Edit).start <
        ({ bd := 2, offs := 0, input := [1], out := [], nbytes := 1,
           rc := .ok } : LoopSt).bd) ∧
    editLoop false [⟨0, 1, [50]⟩]
        { bd := 2, offs := 0, input := [1], out := [], nbytes := 1, rc := .ok }
      = editLoop false []
        { bd := 2, offs := 0, input := [1], out := [], nbytes := 1,
          rc := .ebadval } :=
  ⟨by decide,
   (c4_invalid_edits_dropped false ⟨0, 1, [50]⟩ []
      { bd := 2, offs := 0, input := [1], out := [], nbytes := 1, rc := .ok }
      (initCtx .nobuf 0) []).1 (by decide)⟩

/-- C8: when the engine-wide Lua gate cannot be acquired as a script rule's
operator executes, `ib_lua_func_eval_r` returns that lock status with the
result value never assigned, and the rule, per the spec-modelled operator
dispatch, is considered to have produced false. -/
theorem c8_gate_failure_false (env : LuaCallEnv)
    (h : env.lockNew ≠ .ok) :
    ib_lua_func_eval_r env = (env.lockNew, none)
    ∧ rule_operator_outcome (ib_lua_func_eval_r env) = false := by
  have he : ib_lua_func_eval_r env = (env.lockNew, none) := by
    simp [ib_lua_func_eval_r, call_in_critical_section, h]
  refine ⟨he, ?_⟩
  rw [he]
  cases env.lockNew <;> rfl

theorem c8_witness :
    ib_lua_func_eval_r
        { lockNew := .eunknown, newThread := .ok, unlockNew := .ok,
          evalRc := .ok, evalVal := 1, lockJoin := .ok, joinThread := .ok,
          unlockJoin := .ok }
      = (.eunknown, none)
    ∧ rule_operator_outcome
        (ib_lua_func_eval_r
          { lockNew := .eunknown, newThread := .ok, unlockNew := .ok,
            evalRc := .ok, evalVal := 1, lockJoin := .ok, joinThread := .ok,
            unlockJoin := .ok }) = false :=
  c8_gate_failure_false _ (by decide)

theorem flush_no_edits_conserves (f : FilterCtx) (n : Option Nat) (last : Bool)
    (h : f.edits = []) :
    (flush_data f n last).2.out ++ (flush_data f n last).2.input
        = f.out ++ f.input
    ∧ (flush_data f n last).2.edits = []
    ∧ (flush_data f n last).2.buffering = f.buffering
    ∧ (flush_data f n last).2.buf_limit = f.buf_limit := by
  rw [flush_data_no_edits f n last h]
  simp [List.append_assoc, List.take_append_drop]

theorem bdc_conserves (f : FilterCtx) (chunk : List Nat)
    (hmode : f.buffering ≠ .discard) (hed : f.edits = []) :
    (buffer_data_chunk f chunk).2.out ++ (buffer_data_chunk f chunk).2.input
        = f.out ++ f.input ++ chunk
    ∧ (buffer_data_chunk f chunk).2.edits = []
    ∧ (buffer_data_chunk f chunk).2.buffering = f.buffering
    ∧ (buffer_data_chunk f chunk).2.buf_limit = f.buf_limit := by
  cases hm : f.buffering with
  | discard => exact absurd hm hmode
  | nobuf =>
    rw [bdc_nobuf f chunk hm]
    have hc := flush_no_edits_conserves { f with input := f.input ++ chunk }
      none false hed
    simpa [List.append_assoc, hm] using hc
  | buffer_all =>
    rw [bdc_buffer_all f chunk hm]
    simp [List.append_assoc, hed, hm]
  | buffer_flushall =>
    by_cases hlim : f.buf_limit < f.input.length + chunk.length
    · rw [bdc_flushall_over f chunk hm hlim]
      have hc := flush_no_edits_conserves f none false hed
      simp only [flush_data_buffering, hm]
      refine ⟨?_, hc.2.1, trivial, hc.2.2.2⟩
      rw [← List.append_assoc, hc.1]
    · rw [bdc_flushall_under f chunk hm hlim]
      simp [List.append_assoc, hed, hm]
  | buffer_flushpart =>
    by_cases hlim : f.buf_limit < (f.input ++ chunk).length
    · rw [bdc_flushpart_over f chunk hm hlim]
      have hc := flush_no_edits_conserves { f with input := f.input ++ chunk }
        (some ((f.input ++ chunk).length - f.buf_limit)) false hed
      simpa [List.append_assoc, hm] using hc
    · rw [bdc_flushpart_under f chunk hm hlim]
      simp [List.append_assoc, hed, hm]

theorem runChunks_conserves (chunks : List (List Nat)) :
    ∀ f : FilterCtx, f.buffering ≠ .discard → f.edits = [] →
    (runChunks f chunks).out ++ (runChunks f chunks).input
        = f.out ++ f.input ++ chunks.flatten
    ∧ (runChunks f chunks).edits = []
    ∧ (runChunks f chunks).buffering = f.buffering := by
  induction chunks with
  | nil => intro f _ hed; simp [runChunks, hed]
  | cons c cs ih =>
    intro f hmode hed
    have hstep := bdc_conserves f c hmode hed
    have hrun : runChunks f (c :: cs) = runChunks (buffer_data_chunk f c).2 cs := by
      simp [runChunks]
    have hmode' : (buffer_data_chunk f c).2.buffering ≠ .discard := by
      rw [hstep.2.2.1]; exact hmode
    have ihc := ih (buffer_data_chunk f c).2 hmode' hstep.2.1
    rw [hrun]
    refine ⟨?_, ihc.2.1, by rw [ihc.2.2, hstep.2.2.1]⟩
    rw [ihc.1, hstep.1]
    simp [List.append_assoc]

/-- C2 (amended): byte conservation with an empty edit list holds in every
buffering mode except `discard` (whose purpose is to drop the data): over
any chunk sequence, the bytes emitted by all intermediate flushes plus the
final `last = true` flush are exactly the concatenated input chunks, and
the staging buffer ends empty. -/
theorem c2_byte_conservation (mode : Buffering) (limit : Nat)
    (chunks : List (List Nat)) (h : mode ≠ .discard) :
    (finishRun (runChunks (initCtx mode limit) chunks)).2.out = chunks.flatten
    ∧ (finishRun (runChunks (initCtx mode limit) chunks)).2.input = [] := by
  have hrun := runChunks_conserves chunks (initCtx mode limit)
    (by simpa [initCtx] using h) rfl
  unfold finishRun
  rw [flush_data_no_edits (runChunks (initCtx mode limit) chunks)
    none true hrun.2.1]
  simp only [Option.getD_none]
  constructor
  · simp only [List.take_length]
    have hh : (runChunks (initCtx mode limit) chunks).out
        ++ (runChunks (initCtx mode limit) chunks).input = chunks.flatten := by
      simpa [initCtx] using hrun.1
    simpa using hh
  · simp

theorem c2_witness :
    (Buffering.nobuf ≠ Buffering.discard)
    ∧ (finishRun (runChunks (initCtx .nobuf 0) [[1, 2], [3]])).2.out
        = List.flatten [[1, 2], [3]] :=
  ⟨by decide, (c2_byte_conservation .nobuf 0 [[1, 2], [3]] (by decide)).1⟩

/-- C2 counterexample: in `discard` buffering mode the filter emits nothing,
so the claim's byte conservation fails on a one-chunk input. -/
theorem c2_counterexample :
    (finishRun (runChunks (initCtx .discard 0) [[7]])).2.out ≠ List.flatten [[7]] := by
  decide

/-- C1 counterexample: two zero-delete edits at the same start.  The stored
order is insertion order; the descending stable sort keeps it, and walking
the array from its end applies the later-inserted edit first, so the output
differs from the specification's ascending-start, insertion-order-ties
replacement. -/
theorem c1_counterexample :
    (flush_data
        { initCtx .buffer_all 0 with
          input := [1],
          edits := [⟨0, 0, [10]⟩, ⟨0, 0, [20]⟩] } none true).2.out
      ≠ specApplyEdits [⟨0, 0, [10]⟩, ⟨0, 0, [20]⟩] [1] := by
  decide

/-- C6 counterexample: in `buffer_flushpart` mode with `buf_limit = 1`, a
pending edit that straddles the emit horizon makes the overflow flush
return `again` after clipping, so 3 bytes stay resident instead of
`buf_limit`. -/
theorem c6_counterexample :
    (buffer_data_chunk
        { initCtx .buffer_flushpart 1 with
          input := [1, 2],
          edits := [⟨0, 3, []⟩] } [3]).2.input.length
      ≠ (initCtx .buffer_flushpart 1).buf_limit := by
  decide

/-- C7 counterexample: `parse_operator` accepts a blank between `!` and `@`
(the loop skips blanks regardless of the invert flag), which the claim's
grammar — optional whitespace, optional `!`, then immediately `@` —
rejects. -/
theorem c7_counterexample :
    (parse_operator "! @x".toList).isSome = true
    ∧ claimOperatorAccepts "! @x".toList = false := by
  decide

/-- C3: during `flush_data(nbytes, last=false)`, when the first in-range edit
(after the invalid ones `ds` are dropped) straddles the emit horizon, the
flush emits verbatim bytes only up to that edit's start, leaves it and all
following edits in the array for the next call, and returns `IB_EAGAIN`;
and (second conjunct) an edit ending exactly at the emit horizon
(`start + bytes = bytes_done + nbytes`, in particular a pure insertion at
`bytes_done + nbytes`) passes the range check and is applied. -/
theorem c3_straddle_again (f : FilterCtx) (n : Nat) (ds : List Edit) (e : Edit)
    (rest : List Edit)
    (hp : procOrder f.edits = ds ++ e :: rest)
    (hds : ∀ d ∈ ds, d.start < f.bytes_done)
    (h1 : f.bytes_done ≤ e.start)
    (h2 : f.bytes_done + n < e.start + e.bytes) :
    flush_data f (some n) false =
      (.eagain,
       { f with
         bytes_done := e.start,
         input := f.input.drop (e.start - f.bytes_done),
         out := f.out ++ f.input.take (e.start - f.bytes_done),
         edits := (e :: rest).reverse })
    ∧ (∀ (last : Bool) (st : LoopSt) (e' : Edit) (rest' : List Edit),
        ¬ e'.start < st.bd → st.bd + st.nbytes = e'.start + e'.bytes →
        editLoop last (e' :: rest') st = editLoop last rest' (applyEdit e' st)) := by
  constructor
  · simp only [flush_data, hp, Option.getD_some]
    obtain ⟨r, hr⟩ := editLoop_drops false ds (e :: rest)
      { bd := f.bytes_done, offs := f.offs, input := f.input, out := f.out,
        nbytes := n, rc := .ok } hds
    rw [hr]
    rw [editLoop_break _ _ _ (by simpa using h1) (by simpa using h2)]
    have hb : f.bytes_done + (e.start - f.bytes_done) = e.start := by omega
    simp [hb]
  · intro last st e' rest' h1' h2'
    exact editLoop_apply_step last e' rest' st h1' (by omega)

theorem c3_witness :
    flush_data
        { buffering := .nobuf, buf_limit := 0, bytes_done := 0, offs := 0,
          input := [1, 2, 3, 4, 5], edits := [⟨3, 4, [20, 21]⟩], out := [],
          vio_nbytes := none } (some 5) false
      = (.eagain,
         { buffering := .nobuf, buf_limit := 0, bytes_done := 3, offs := 0,
           input := [4, 5], edits := [⟨3, 4, [20, 21]⟩], out := [1, 2, 3],
           vio_nbytes := none }) :=
  (c3_straddle_again _ 5 [] ⟨3, 4, [20, 21]⟩ []
    (by decide) (by decide) (by decide) (by decide)).1

/-- C5: a flush changes `offs` by exactly Σ (replacement length − deleted
bytes) over the edits it applies; and on a `last = true` flush the byte
count committed through `TSVIONBytesSet` is `bytes_done + offs`, which —
whenever the context satisfies the running invariant `|out| = bytes_done +
offs` and the flush size is within the buffered bytes — equals the total
number of bytes emitted to the output buffer. -/
theorem c5_offs_accounting (f : FilterCtx) (n : Option Nat)
    (hn : n.getD f.input.length ≤ f.input.length)
    (hinv : (f.out.length : Int) = (f.bytes_done : Int) + f.offs) :
    (flush_data f n true).2.offs
        = f.offs + editGain (appliedEdits true (procOrder f.edits)
            { bd := f.bytes_done, offs := f.offs, input := f.input,
              out := f.out, nbytes := n.getD f.input.length, rc := .ok })
    ∧ (flush_data f n true).2.vio_nbytes
        = some (((flush_data f n true).2.bytes_done : Int)
                  + (flush_data f n true).2.offs)
    ∧ ((flush_data f n true).2.out.length : Int)
        = ((flush_data f n true).2.bytes_done : Int)
            + (flush_data f n true).2.offs := by
  simp only [flush_data]
  refine ⟨editLoop_offs true (procOrder f.edits) _, by simp, ?_⟩
  have hnb := editLoop_last_nbytes (procOrder f.edits)
    { bd := f.bytes_done, offs := f.offs, input := f.input,
      out := f.out, nbytes := n.getD f.input.length, rc := .ok } hn
  have hout := editLoop_out_inv true (procOrder f.edits)
    { bd := f.bytes_done, offs := f.offs, input := f.input,
      out := f.out, nbytes := n.getD f.input.length, rc := .ok } hn
  simp only at hnb hout
  simp only [List.length_append, List.length_take]
  push_cast
  omega

theorem c5_witness :
    ((flush_data
        { buffering := .buffer_all, buf_limit := 0, bytes_done := 0, offs := 0,
          input := [1, 2, 3, 4, 5, 6, 7, 8, 9, 10],
          edits := [⟨5, 5, [11, 12, 13, 14, 15]⟩], out := [],
          vio_nbytes := none } none true).2.out.length : Int)
      = ((flush_data
        { buffering := .buffer_all, buf_limit := 0, bytes_done := 0, offs := 0,
          input := [1, 2, 3, 4, 5, 6, 7, 8, 9, 10],
          edits := [⟨5, 5, [11, 12, 13, 14, 15]⟩], out := [],
          vio_nbytes := none } none true).2.bytes_done : Int)
        + (flush_data
        { buffering := .buffer_all, buf_limit := 0, bytes_done := 0, offs := 0,
          input := [1, 2, 3, 4, 5, 6, 7, 8, 9, 10],
          edits := [⟨5, 5, [11, 12, 13, 14, 15]⟩], out := [],
          vio_nbytes := none } none true).2.offs :=
  (c5_offs_accounting _ none (by decide) (by decide)).2.2

/-- C6 (amended): in `buffer_flushall` mode, when the chunk would push
`buffered` past `buf_limit`, the whole existing buffer is flushed before
the chunk is copied in, so only the chunk remains resident; in
`buffer_flushpart` mode, when `buffered` exceeds `buf_limit` after the
copy, exactly the overflow is flushed, leaving `buf_limit` bytes resident —
in both cases provided the flush is not clipped by an edit straddling the
emit horizon (status `again`), in which case more bytes stay resident. -/
theorem c6_buffer_limits (f : FilterCtx) (chunk : List Nat) :
    (f.buffering = .buffer_flushall →
      f.buf_limit < f.input.length + chunk.length →
      (buffer_data_chunk f chunk).1 ≠ .eagain →
      (buffer_data_chunk f chunk).2.input = chunk)
    ∧ (f.buffering = .buffer_flushpart →
      f.buf_limit < f.input.length + chunk.length →
      (buffer_data_chunk f chunk).1 ≠ .eagain →
      (buffer_data_chunk f chunk).2.input.length = f.buf_limit) := by
  constructor
  · intro hm hlim hrc
    rw [bdc_flushall_over f chunk hm hlim] at hrc ⊢
    have hc := flush_consume f none false (by simp) hrc
    simp only [Option.getD_none] at hc
    have hnil : (flush_data f none false).2.input = [] := by
      rw [← List.length_eq_zero]
      omega
    simp [hnil]
  · intro hm hlim hrc
    have hlim' : f.buf_limit < (f.input ++ chunk).length := by
      simpa [List.length_append] using hlim
    rw [bdc_flushpart_over f chunk hm hlim'] at hrc ⊢
    have hc := flush_consume { f with input := f.input ++ chunk }
      (some ((f.input ++ chunk).length - f.buf_limit)) false (by simp) hrc
    simp only [Option.getD_some, List.length_append] at hc ⊢
    omega

theorem c6_witness :
    (buffer_data_chunk { initCtx .buffer_flushall 1 with
        input := [1, 2] } [3]).2.input = [3]
    ∧ (buffer_data_chunk { initCtx .buffer_flushpart 1 with
        input := [1, 2] } [3]).2.input.length
      = ({ initCtx .buffer_flushpart 1 with
           input := [1, 2] } : FilterCtx).buf_limit :=
  ⟨(c6_buffer_limits { initCtx .buffer_flushall 1 with input := [1, 2] } [3]).1
     rfl (by decide) (by decide),
   (c6_buffer_limits { initCtx .buffer_flushpart 1 with input := [1, 2] } [3]).2
     rfl (by decide) (by decide)⟩

/-- C9 counterexample: the inputs string `"|"` passes the emptiness check of
`parse_inputs` but contains no `strtok` token, so the Rule directive is
accepted with zero input selectors while the external flag is unset and an
operator instance is present. -/
theorem c9_counterexample :
    ((rules_rule_params ⟨fun _ => true, fun _ => true⟩
        ["|".toList, "@rx x".toList]).map
      (fun rp => (rp.1.inputs, rp.1.flags &&& IB_RULE_FLAG_EXTERNAL,
                  rp.1.op.isSome)))
      = some ([], 0, true) := by
  decide

theorem or_chain_keeps_external (x : Nat) :
    (x ||| IB_RULE_FLAG_CHAIN) &&& IB_RULE_FLAG_EXTERNAL
      = x &&& IB_RULE_FLAG_EXTERNAL := by
  rw [IB_RULE_FLAG_CHAIN, IB_RULE_FLAG_EXTERNAL, Nat.and_distrib_right]
  norm_num

theorem tokenizeAux_ne_nil_acc (l : List Char) :
    ∀ acc, acc ≠ [] → tokenizeAux l acc ≠ [] := by
  induction l with
  | nil => intro acc h; simp [tokenizeAux, h]
  | cons c cs ih =>
    intro acc h
    by_cases hd : isDelimC c
    · simp [tokenizeAux, hd, h]
    · simp only [tokenizeAux, if_neg hd]
      exact ih (c :: acc) (by simp)

theorem tokenizeAux_ne_nil (l : List Char) :
    ∀ acc, (∃ c ∈ l, isDelimC c = false) → tokenizeAux l acc ≠ [] := by
  induction l with
  | nil => intro acc h; obtain ⟨c, hc, _⟩ := h; simp at hc
  | cons c cs ih =>
    intro acc h
    by_cases hd : isDelimC c
    · obtain ⟨x, hx, hxd⟩ := h
      have hxcs : x ∈ cs := by
        rcases List.mem_cons.mp hx with h1 | h1
        · rw [h1] at hxd; rw [hxd] at hd; exact absurd hd (by simp)
        · exact h1
      by_cases hacc : acc = []
      · simp only [tokenizeAux, if_pos hd, if_pos hacc]
        exact ih [] ⟨x, hxcs, hxd⟩
      · simp [tokenizeAux, hd, hacc]
    · simp only [tokenizeAux, if_neg hd]
      exact tokenizeAux_ne_nil_acc cs (c :: acc) (by simp)

theorem mem_dropWhile_of_neg {p : Char → Bool} {a : Char} :
    ∀ {l : List Char}, a ∈ l → p a = false → a ∈ l.dropWhile p := by
  intro l
  induction l with
  | nil => intro h _; simp at h
  | cons b bs ih =>
    intro hmem hpa
    by_cases hb : p b
    · rw [List.dropWhile_cons_of_pos hb]
      rcases List.mem_cons.mp hmem with h1 | h1
      · rw [h1] at hpa; rw [hpa] at hb; exact absurd hb (by simp)
      · exact ih h1 hpa
    · rw [List.dropWhile_cons_of_neg (by simpa using hb)]
      exact hmem

theorem parse_inputs_tokens (i : List Char) (toks : List (List Char))
    (h : parse_inputs i = some toks)
    (hw : ∃ c ∈ i, isspaceC c = false ∧ isDelimC c = false) :
    toks ≠ [] := by
  simp only [parse_inputs] at h
  split at h
  · exact absurd h (by simp)
  · obtain ⟨c, hc, hcs, hcd⟩ := hw
    have hmem : c ∈ i.dropWhile isspaceC := mem_dropWhile_of_neg hc hcs
    have := tokenizeAux_ne_nil (i.dropWhile isspaceC) [] ⟨c, hmem, hcd⟩
    simp only [Option.some.injEq] at h
    rw [← h]
    exact this

theorem parse_modifier_inv (env : ParseEnv) (rule : Rule) (phase : Phase)
    (s : List Char) (r' : Rule) (p' : Phase)
    (h : parse_modifier env rule phase s = some (r', p')) :
    r'.inputs = rule.inputs ∧ r'.op = rule.op
    ∧ r'.flags &&& IB_RULE_FLAG_EXTERNAL
        = rule.flags &&& IB_RULE_FLAG_EXTERNAL := by
  simp only [parse_modifier] at h
  repeat' split at h
  all_goals first
    | (simp only [Option.some.injEq, Prod.mk.injEq] at h
       rw [← h.1]
       first
         | exact ⟨rfl, rfl, rfl⟩
         | exact ⟨rfl, rfl, or_chain_keeps_external rule.flags⟩)
    | exact Option.noConfusion h

theorem parseMods_inv (env : ParseEnv) (mods : List (List Char)) :
    ∀ (rule : Rule) (phase : Phase) (r' : Rule) (p' : Phase),
    parseMods env rule phase mods = some (r', p') →
    r'.inputs = rule.inputs ∧ r'.op = rule.op
    ∧ r'.flags &&& IB_RULE_FLAG_EXTERNAL
        = rule.flags &&& IB_RULE_FLAG_EXTERNAL := by
  induction mods with
  | nil =>
    intro rule phase r' p' h
    simp only [parseMods, Option.some.injEq, Prod.mk.injEq] at h
    rw [← h.1]
    exact ⟨rfl, rfl, rfl⟩
  | cons m ms ih =>
    intro rule phase r' p' h
    simp only [parseMods] at h
    split at h
    · exact Option.noConfusion h
    · rename_i rp hrp
      have h1 := parse_modifier_inv env rule phase m rp.1 rp.2 (by rw [hrp])
      have h2 := ih rp.1 rp.2 r' p' h
      exact ⟨h2.1.trans h1.1, h2.2.1.trans h1.2.1, h2.2.2.trans h1.2.2⟩

/-- C9 (amended): a rule accepted by the `Rule` directive parser has a
non-null operator instance and its external flag unset (nothing in the
`Rule` path sets `IB_RULE_FLAG_EXTERNAL`), and it has at least one input
selector provided the inputs string contains a character that is neither
whitespace nor a `strtok` delimiter; a string of only delimiters (after
leading whitespace) passes `parse_inputs` yet contributes zero
selectors. -/
theorem c9_rule_inputs_operator (env : ParseEnv) (i o : List Char)
    (mods : List (List Char)) (r : Rule) (p : Phase)
    (h : rules_rule_params env (i :: o :: mods) = some (r, p)) :
    r.op.isSome
    ∧ r.flags &&& IB_RULE_FLAG_EXTERNAL = 0
    ∧ ((∃ c ∈ i, isspaceC c = false ∧ isDelimC c = false) → r.inputs ≠ []) := by
  simp only [rules_rule_params] at h
  split at h
  · exact Option.noConfusion h
  · rename_i toks htoks
    split at h
    · exact Option.noConfusion h
    · rename_i opp hopp
      split at h
      · have hinv := parseMods_inv env mods _ _ r p h
        have hop : r.op = some opp := hinv.2.1
        have hfl : r.flags &&& IB_RULE_FLAG_EXTERNAL
            = ib_rule_create.flags &&& IB_RULE_FLAG_EXTERNAL := hinv.2.2
        have hin : r.inputs = toks := hinv.1
        refine ⟨by simp [hop], by simpa [ib_rule_create] using hfl, ?_⟩
        intro hw
        rw [hin]
        exact parse_inputs_tokens i toks htoks hw
      · exact Option.noConfusion h

theorem c9_witness :
    ({ flags := 0, inputs := [['A', 'R', 'G', 'S']],
       op := some ⟨false, ['r', 'x'], some ['f', 'o', 'o']⟩,
       ruleId := none, true_actions := [], false_actions := [] } : Rule).op.isSome
    ∧ ({ flags := 0, inputs := [['A', 'R', 'G', 'S']],
         op := some ⟨false, ['r', 'x'], some ['f', 'o', 'o']⟩,
         ruleId := none, true_actions := [], false_actions := [] } : Rule).flags
        &&& IB_RULE_FLAG_EXTERNAL = 0 :=
  ⟨(c9_rule_inputs_operator ⟨fun _ => true, fun _ => true⟩
      "ARGS".toList "@rx foo".toList [] _ .phase_none (by decide)).1,
   (c9_rule_inputs_operator ⟨fun _ => true, fun _ => true⟩
      "ARGS".toList "@rx foo".toList [] _ .phase_none (by decide)).2.1⟩

theorem scanOp_blank (c : Char) (cs : List Char) (b : Bool)
    (h : isblankC c = true) :
    scanOp (c :: cs) b = scanOp cs b := by
  have hc : c = ' ' ∨ c = '\t' := by
    simpa [isblankC] using h
  rcases hc with rfl | rfl <;> simp [scanOp, isblankC]

theorem dropWhile_head_neg {p : Char → Bool} {c : Char} {cs : List Char} :
    ∀ {l : List Char}, l.dropWhile p = c :: cs → p c = false := by
  intro l
  induction l with
  | nil => intro h; simp at h
  | cons b bs ih =>
    intro h
    by_cases hb : p b
    · rw [List.dropWhile_cons_of_pos hb] at h
      exact ih h
    · rw [List.dropWhile_cons_of_neg (by simpa using hb)] at h
      have : b = c := (List.cons.injEq _ _ _ _ ▸ h).1
      rw [← this]
      simpa using hb

theorem stripTrailingSp_ne_nil (c : Char) (cs : List Char) (h : ¬ c = ' ') :
    stripTrailingSp (c :: cs) ≠ [] := by
  intro hnil
  unfold stripTrailingSp at hnil
  rw [List.reverse_eq_nil_iff] at hnil
  rw [List.dropWhile_eq_nil_iff] at hnil
  have := hnil c (by simp)
  simp at this
  exact h this

theorem opSplitArgs_eq_grammarSplit (bang : Bool) (tail : List Char) :
    opSplitArgs bang tail = grammarSplit bang tail := by
  by_cases h0 : tail = []
  · simp [opSplitArgs, grammarSplit, h0]
  · simp only [opSplitArgs, grammarSplit, if_neg h0]
    by_cases h1 : tail.dropWhile (fun c => c != ' ') = []
    · simp [h1, stripTrailingSp]
    · simp only [if_neg h1]
      by_cases h2 : (tail.dropWhile (fun c => c != ' ')).dropWhile isspaceC = []
      · simp [h2, stripTrailingSp]
      · simp only [if_neg h2]
        obtain ⟨c, cs, hc⟩ := List.exists_cons_of_ne_nil h2
        have hcs : isspaceC c = false := dropWhile_head_neg hc
        have hcsp : ¬ c = ' ' := by
          intro hsp
          rw [hsp] at hcs
          simp [isspaceC] at hcs
        rw [hc]
        rw [if_neg (stripTrailingSp_ne_nil c cs hcsp)]

theorem scanOp_true (r : List Char) :
    scanOp r true =
      (match r.dropWhile isblankC with
       | [] => none
       | c2 :: r2 => if c2 = '@' then some (true, r2) else none) := by
  induction r with
  | nil => rfl
  | cons d ds ih =>
    by_cases hb : isblankC d
    · rw [scanOp_blank d ds true hb, List.dropWhile_cons_of_pos hb, ih]
    · rw [List.dropWhile_cons_of_neg (by simpa using hb)]
      by_cases hat : d = '@'
      · subst hat
        simp [scanOp]
      · simp [scanOp, hat, hb]

/-- C7 (amended): `parse_operator` decomposes every operator string exactly
as the grammar "optional blanks, an optional single `!` (which sets the
invert flag) optionally followed by blanks, then `@` and a non-empty
tail" does, with the tail cut at the first space, leading whitespace and
trailing spaces of the arguments stripped and empty arguments absent; in
particular it accepts exactly the strings this grammar accepts.  The
amendment over the claim is that blanks may also stand between `!` and `@`
(the scan loop skips blanks regardless of the invert flag). -/
theorem c7_operator_grammar (s : List Char) :
    parse_operator s = grammarOperator s := by
  induction s with
  | nil => rfl
  | cons c cs ih =>
    by_cases hb : isblankC c
    · have h1 : parse_operator (c :: cs) = parse_operator cs := by
        simp only [parse_operator, scanOp_blank c cs false hb]
      have h2 : grammarOperator (c :: cs) = grammarOperator cs := by
        simp only [grammarOperator, List.dropWhile_cons_of_pos hb]
      rw [h1, h2, ih]
    · by_cases hbang : c = '!'
      · subst hbang
        have h1 : scanOp ('!' :: cs) false = scanOp cs true := by
          simp [scanOp]
        simp only [parse_operator, h1, scanOp_true cs, grammarOperator,
          List.dropWhile_cons_of_neg (by simpa using hb), if_pos rfl]
        cases hd : cs.dropWhile isblankC with
        | nil => rfl
        | cons c2 r2 =>
          by_cases hat : c2 = '@'
          · subst hat
            simp [opSplitArgs_eq_grammarSplit]
          · simp [hat]
      · by_cases hat : c = '@'
        · subst hat
          have h1 : scanOp ('@' :: cs) false = some (false, cs) := by
            simp [scanOp]
          simp only [parse_operator, h1, grammarOperator,
            List.dropWhile_cons_of_neg (by simpa using hb)]
          simp [opSplitArgs_eq_grammarSplit]
        · have h1 : scanOp (c :: cs) false = none := by
            simp [scanOp, hbang, hat, hb]
          simp only [parse_operator, h1, grammarOperator,
            List.dropWhile_cons_of_neg (by simpa using hb),
            if_neg hbang, if_neg hat]

theorem insertDesc_perm (e : Edit) (l : List Edit) :
    (insertDesc e l).Perm (e :: l) := by
  induction l with
  | nil => exact List.Perm.refl _
  | cons x xs ih =>
    simp only [insertDesc]
    split
    · exact List.Perm.refl _
    · exact (ih.cons x).trans (List.Perm.swap e x xs)

theorem sortDesc_perm (es : List Edit) : (sortDesc es).Perm es := by
  induction es with
  | nil => exact List.Perm.refl _
  | cons e l ih =>
    simp only [sortDesc, List.foldr_cons]
    exact (insertDesc_perm e _).trans (ih.cons e)

theorem insertDesc_sorted (e : Edit) (l : List Edit)
    (h : l.Pairwise (fun a b => b.start ≤ a.start)) :
    (insertDesc e l).Pairwise (fun a b => b.start ≤ a.start) := by
  induction l with
  | nil => simp [insertDesc]
  | cons x xs ih =>
    simp only [insertDesc]
    rw [List.pairwise_cons] at h
    split
    · rename_i hx
      rw [List.pairwise_cons]
      refine ⟨?_, List.pairwise_cons.mpr h⟩
      intro y hy
      rcases List.mem_cons.mp hy with rfl | hy2
      · exact hx
      · exact le_trans (h.1 y hy2) hx
    · rename_i hx
      rw [List.pairwise_cons]
      refine ⟨?_, ih h.2⟩
      intro y hy
      have hy2 := (insertDesc_perm e xs).mem_iff.mp hy
      rcases List.mem_cons.mp hy2 with rfl | hy3
      · omega
      · exact h.1 y hy3

theorem sortDesc_sorted (es : List Edit) :
    (sortDesc es).Pairwise (fun a b => b.start ≤ a.start) := by
  induction es with
  | nil => simp [sortDesc]
  | cons e l ih => exact insertDesc_sorted e _ ih

theorem procOrder_perm (es : List Edit) : (procOrder es).Perm es := by
  unfold procOrder
  exact (List.reverse_perm _).trans (sortDesc_perm es)

theorem procOrder_sorted (es : List Edit) :
    (procOrder es).Pairwise (fun a b => a.start ≤ b.start) := by
  unfold procOrder
  rw [List.pairwise_reverse]
  exact sortDesc_sorted es

theorem insertAsc_perm (e : Edit) (l : List Edit) :
    (insertAsc e l).Perm (e :: l) := by
  induction l with
  | nil => exact List.Perm.refl _
  | cons x xs ih =>
    simp only [insertAsc]
    split
    · exact List.Perm.refl _
    · exact (ih.cons x).trans (List.Perm.swap e x xs)

theorem sortAsc_perm (es : List Edit) : (sortAsc es).Perm es := by
  induction es with
  | nil => exact List.Perm.refl _
  | cons e l ih =>
    simp only [sortAsc, List.foldr_cons]
    exact (insertAsc_perm e _).trans (ih.cons e)

theorem insertAsc_sorted (e : Edit) (l : List Edit)
    (h : l.Pairwise (fun a b => a.start ≤ b.start)) :
    (insertAsc e l).Pairwise (fun a b => a.start ≤ b.start) := by
  induction l with
  | nil => simp [insertAsc]
  | cons x xs ih =>
    simp only [insertAsc]
    rw [List.pairwise_cons] at h
    split
    · rename_i hx
      rw [List.pairwise_cons]
      refine ⟨?_, List.pairwise_cons.mpr h⟩
      intro y hy
      rcases List.mem_cons.mp hy with rfl | hy2
      · exact hx
      · exact le_trans hx (h.1 y hy2)
    · rename_i hx
      rw [List.pairwise_cons]
      refine ⟨?_, ih h.2⟩
      intro y hy
      have hy2 := (insertAsc_perm e xs).mem_iff.mp hy
      rcases List.mem_cons.mp hy2 with rfl | hy3
      · omega
      · exact h.1 y hy3

theorem sortAsc_sorted (es : List Edit) :
    (sortAsc es).Pairwise (fun a b => a.start ≤ b.start) := by
  induction es with
  | nil => simp [sortAsc]
  | cons e l ih => exact insertAsc_sorted e _ ih

theorem pairwise_lt_of_sorted_ne {l : List Edit}
    (hs : l.Pairwise (fun a b => a.start ≤ b.start))
    (hne : l.Pairwise (fun a b => a.start ≠ b.start)) :
    l.Pairwise (fun a b => a.start < b.start) := by
  have := List.Pairwise.and hs hne
  exact this.imp (fun h => lt_of_le_of_ne h.1 h.2)

theorem sorted_lt_unique :
    ∀ {l1 l2 : List Edit}, l1.Perm l2 →
    l1.Pairwise (fun a b => a.start < b.start) →
    l2.Pairwise (fun a b => a.start < b.start) → l1 = l2 := by
  intro l1 l2 hp h1 h2
  letI : IsAntisymm Edit (fun a b => a.start < b.start) :=
    ⟨fun a b hab hba => absurd (hab.trans hba) (lt_irrefl _)⟩
  exact List.eq_of_perm_of_sorted hp h1 h2

theorem procOrder_eq_sortAsc (es : List Edit)
    (hne : es.Pairwise (fun a b => a.start ≠ b.start)) :
    procOrder es = sortAsc es := by
  have hperm : (procOrder es).Perm (sortAsc es) :=
    (procOrder_perm es).trans (sortAsc_perm es).symm
  have hne1 : (procOrder es).Pairwise (fun a b => a.start ≠ b.start) :=
    ((procOrder_perm es).pairwise_iff (fun h => h.symm)).mpr hne
  have hne2 : (sortAsc es).Pairwise (fun a b => a.start ≠ b.start) :=
    ((sortAsc_perm es).pairwise_iff (fun h => h.symm)).mpr hne
  exact sorted_lt_unique hperm
    (pairwise_lt_of_sorted_ne (procOrder_sorted es) hne1)
    (pairwise_lt_of_sorted_ne (sortAsc_sorted es) hne2)

theorem chainValid_of_sep :
    ∀ (ps : List Edit) (bd : Nat),
    ps.Pairwise (fun a b => a.start + a.bytes ≤ b.start) →
    (∀ e ∈ ps, bd ≤ e.start) → chainValid bd ps := by
  intro ps
  induction ps with
  | nil => intro bd _ _; trivial
  | cons e rest ih =>
    intro bd hsep hbd
    rw [List.pairwise_cons] at hsep
    exact ⟨hbd e (by simp), ih (e.start + e.bytes) hsep.2 hsep.1⟩

theorem editLoop_applies (last : Bool) :
    ∀ (ps : List Edit) (st : LoopSt),
    st.nbytes = st.input.length →
    chainValid st.bd ps →
    (∀ e ∈ ps, e.start + e.bytes ≤ st.bd + st.nbytes) →
    (editLoop last ps st).2 = []
    ∧ (editLoop last ps st).1.rc = st.rc
    ∧ (editLoop last ps st).1.nbytes = (editLoop last ps st).1.input.length
    ∧ (editLoop last ps st).1.out ++ (editLoop last ps st).1.input
        = st.out ++ replaceAsc ps st.bd st.input := by
  intro ps
  induction ps with
  | nil =>
    intro st h _ _
    exact ⟨rfl, rfl, h, by simp [editLoop, replaceAsc]⟩
  | cons e rest ih =>
    intro st hlen hcv hbound
    obtain ⟨hbd, hcv2⟩ := hcv
    have hb := hbound e (by simp)
    have h1 : ¬ e.start < st.bd := by omega
    have h2 : ¬ st.bd + st.nbytes < e.start + e.bytes := by omega
    rw [editLoop_apply_step last e rest st h1 h2]
    have hlen2 : (applyEdit e st).nbytes = (applyEdit e st).input.length := by
      simp only [applyEdit, List.length_drop]
      omega
    have hcv3 : chainValid (applyEdit e st).bd rest := hcv2
    have hbound2 : ∀ x ∈ rest, x.start + x.bytes
        ≤ (applyEdit e st).bd + (applyEdit e st).nbytes := by
      intro x hx
      have := hbound x (by simp [hx])
      simp only [applyEdit]
      omega
    obtain ⟨ih1, ih2, ih3, ih4⟩ := ih (applyEdit e st) hlen2 hcv3 hbound2
    refine ⟨ih1, ih2, ih3, ?_⟩
    rw [ih4]
    simp only [applyEdit, replaceAsc]
    simp [List.append_assoc]

theorem flush_full_applies (f : FilterCtx) (last : Bool)
    (hcv : chainValid f.bytes_done (procOrder f.edits))
    (hbound : ∀ e ∈ procOrder f.edits,
      e.start + e.bytes ≤ f.bytes_done + f.input.length) :
    (flush_data f none last).2.out
        = f.out ++ replaceAsc (procOrder f.edits) f.bytes_done f.input
    ∧ (flush_data f none last).1 = .ok
    ∧ (flush_data f none last).2.input = []
    ∧ (flush_data f none last).2.edits = [] := by
  simp only [flush_data, Option.getD_none]
  obtain ⟨h1, h2, h3, h4⟩ := editLoop_applies last (procOrder f.edits)
    { bd := f.bytes_done, offs := f.offs, input := f.input, out := f.out,
      nbytes := f.input.length, rc := .ok }
    rfl hcv hbound
  refine ⟨?_, h2, ?_, ?_⟩
  · rw [h3, List.take_length]
    simpa using h4
  · rw [h3, List.drop_length]
  · rw [h1]
    rfl

/-- C1 (amended): for every input stream and every set of pairwise
non-overlapping edits with pairwise distinct starts, each within the
stream's bounds, the bytes emitted by the final flush equal the
specification's replacement result in ascending-start order, with status
ok; and the descending qsort followed by iterating from the array's end
does process edits in ascending-start order (third conjunct).  The
amendment excludes edits sharing a start: the stored-order model of qsort
(stable, ties in insertion order) walks equal-start edits in reverse
insertion order, so the claim's insertion-order tie-break fails (see the
counterexample); C's qsort leaves tie order unspecified altogether. -/
theorem c1_edit_semantics (I : List Nat) (es : List Edit) (mode : Buffering) (limit : Nat)
    (hdis : es.Pairwise editsDisjoint)
    (hne : es.Pairwise (fun a b => a.start ≠ b.start))
    (hrange : ∀ e ∈ es, e.start + e.bytes ≤ I.length) :
    (flush_data { initCtx mode limit with input := I, edits := es }
        none true).2.out
      = specApplyEdits es I
    ∧ (flush_data { initCtx mode limit with input := I, edits := es }
        none true).1 = .ok
    ∧ (procOrder es).Pairwise (fun a b => a.start ≤ b.start) := by
  have hperm := procOrder_perm es
  have hdisP : (procOrder es).Pairwise editsDisjoint :=
    (hperm.pairwise_iff (fun h => h.symm)).mpr hdis
  have hneP : (procOrder es).Pairwise (fun a b => a.start ≠ b.start) :=
    (hperm.pairwise_iff (fun h => Ne.symm h)).mpr hne
  have hltP := pairwise_lt_of_sorted_ne (procOrder_sorted es) hneP
  have hsep : (procOrder es).Pairwise
      (fun a b => a.start + a.bytes ≤ b.start) := by
    refine (hdisP.and hltP).imp ?_
    intro a b h
    rcases h.1 with h' | h'
    · exact h'
    · have := h.2
      omega
  have hcv : chainValid 0 (procOrder es) :=
    chainValid_of_sep _ 0 hsep (fun e _ => Nat.zero_le _)
  have hbound : ∀ e ∈ procOrder es, e.start + e.bytes ≤ 0 + I.length := by
    intro e he
    simpa using hrange e (hperm.mem_iff.mp he)
  have hfull := flush_full_applies
    { initCtx mode limit with input := I, edits := es } true hcv hbound
  refine ⟨?_, hfull.2.1, procOrder_sorted es⟩
  rw [hfull.1]
  simp only [specApplyEdits, ← procOrder_eq_sortAsc es hne]
  rfl

theorem c1_witness :
    (flush_data
        { initCtx .buffer_all 0 with
          input := [1, 2, 3, 4, 5, 6, 7, 8, 9, 10],
          edits := [⟨5, 5, [11, 12, 13, 14, 15]⟩, ⟨2, 0, [30]⟩] }
        none true).2.out
      = specApplyEdits [⟨5, 5, [11, 12, 13, 14, 15]⟩, ⟨2, 0, [30]⟩]
          [1, 2, 3, 4, 5, 6, 7, 8, 9, 10] :=
  (c1_edit_semantics [1, 2, 3, 4, 5, 6, 7, 8, 9, 10]
    [⟨5, 5, [11, 12, 13, 14, 15]⟩, ⟨2, 0, [30]⟩] .buffer_all 0
    (by decide) (by decide) (by decide)).1


end IronBee
